import Mathlib

/-!
Verification of the "combine selected open files" extension core
(`src/src/extension.ts`): the combiner built in the webview's
combine-button click handler, the `escapeHtml` helper, the checkbox
selection model of `renderFileList` and the select-all / unselect-all
handlers, and the `getOpenFiles` enumerator.
-/

namespace CombineFiles

/-- A record describing one open document, as produced by `getOpenFiles`:
`{ name, path, content }`. -/
structure FileRecord where
  name : String
  path : String
  content : String

/-- The fixed text that opens every section header
(from the template literal in the combine-button click handler). -/
def marker : String := "// ===== File: "

/-- The header built for one file in the click handler:
the template literal `// ===== File: ${file.path} =====\n\n`. -/
def header (p : String) : String := marker ++ p ++ " =====\n\n"

/-- One element pushed onto `selectedContents`: `header + file.content`. -/
def sectionOf (f : FileRecord) : String := header f.path ++ f.content

/-- JavaScript `Array.prototype.join(sep)`: elements separated by `sep`,
empty array yields the empty string. -/
def joinSep (sep : String) : List String → String
  | [] => ""
  | [s] => s
  | s :: rest => s ++ sep ++ joinSep sep rest

/-- The combiner: given the selected records in order, build each section
and join them with `'\n\n'` (the `selectedContents.join('\n\n')` call). -/
def combine (files : List FileRecord) : String :=
  joinSep "\n\n" (files.map sectionOf)

/-- The records gathered by the click handler from a list of checked
checkbox indices: each index is looked up in `fileData`; a missing entry
(`fileData[index]` undefined) is skipped by the `if (file)` guard. -/
def selectedFiles (fileData : List FileRecord) (indices : List Nat) : List FileRecord :=
  indices.filterMap (fun i => fileData[i]?)

/-- The full click handler: look up every checked index, keep the records
that exist, and combine them. -/
def combineSel (fileData : List FileRecord) (indices : List Nat) : String :=
  combine (selectedFiles fileData indices)

/-- The double-quote character (code point 34). -/
def quotC : Char := Char.ofNat 34

/-- The apostrophe character (code point 39). -/
def aposC : Char := Char.ofNat 39

/-- The per-character substitution of `escapeHtml`:
the object lookup applied to each regex match; characters outside the
class `[&<>"']` are left unchanged by `String.prototype.replace`. -/
def escapeChar (c : Char) : String :=
  if c = '&' then "&amp;"
  else if c = '<' then "&lt;"
  else if c = '>' then "&gt;"
  else if c = quotC then "&quot;"
  else if c = aposC then "&#39;"
  else String.singleton c

/-- The left-to-right single pass of `str.replace(/[&<>"']/g, ...)`. -/
def escapeRun : List Char → String
  | [] => ""
  | c :: rest => escapeChar c ++ escapeRun rest

/-- `escapeHtml` from the webview script. -/
def escapeHtml (str : String) : String := escapeRun str.data

/-- Selection state of the rendered checkbox list, one Boolean per
rendered index, in document order. `renderFileList` creates every
checkbox with the `checked` attribute set. -/
def initFlags (n : Nat) : List Bool := List.replicate n true

/-- The select-all / unselect-all handlers: assign `checkbox.checked = b`
to every checkbox. -/
def setAll (b : Bool) (s : List Bool) : List Bool := s.map (fun _ => b)

/-- Clicking checkbox `i`: its `checked` flag is inverted; no other
checkbox changes. An index with no checkbox changes nothing. -/
def toggle : Nat → List Bool → List Bool
  | _, [] => []
  | 0, b :: bs => (!b) :: bs
  | i + 1, b :: bs => b :: toggle i bs

/-- The indices of the checked checkboxes from position `start` on,
scanning in document order (`querySelectorAll` returns document order). -/
def selectedIndicesFrom : Nat → List Bool → List Nat
  | _, [] => []
  | start, b :: bs =>
    if b then start :: selectedIndicesFrom (start + 1) bs
    else selectedIndicesFrom (start + 1) bs

/-- The checked indices of the whole list, ascending. -/
def selectedIndices (s : List Bool) : List Nat := selectedIndicesFrom 0 s

/-- What a tab's `input` offers to `getOpenFiles`: either a
`TabInputText` carrying a uri, or some other kind of tab. -/
inductive TabInput where
  | text (uri : String)
  | other

/-- One per-tab promise body of `getOpenFiles`: a text tab is read
(`rd` models `openTextDocument` plus record construction; an exception
is `none`), any other tab maps to `null`. -/
def readTab (rd : String → Option FileRecord) : TabInput → Option FileRecord
  | TabInput.text u => rd u
  | TabInput.other => none

/-- `getOpenFiles` on an already-flattened tab list: map every tab to a
record or `null`, await all, filter out the `null`s. -/
def filesOfTabs (rd : String → Option FileRecord) (tabs : List TabInput) :
    List FileRecord :=
  (tabs.map (readTab rd)).filterMap id

/-- `getOpenFiles`: flatten the tab groups, then enumerate. -/
def getOpenFiles (rd : String → Option FileRecord)
    (groups : List (List TabInput)) : List FileRecord :=
  filesOfTabs rd groups.flatten

/-- `Promise.all` under an explicit completion schedule: `order` lists
the tab indices in the order their reads complete; each completion
stores its result at its own index, and the aggregate result is read
out by index, so the final filtered list follows tab order. -/
def gather (rd : String → Option FileRecord) (tabs : List TabInput)
    (order : List Nat) : List FileRecord :=
  ((List.range tabs.length).map (fun i =>
    (((order.map (fun j => (j, (tabs[j]?).bind (readTab rd)))).lookup i).bind id))).filterMap id

/-- Number of positions of `s` at which `pat` occurs as a substring. -/
def countOcc (pat : List Char) : List Char → Nat
  | [] => 0
  | c :: rest => (if pat.isPrefixOf (c :: rest) then 1 else 0) + countOcc pat rest

/-- The positions of `s` at which `pat` occurs, ascending. -/
def occPos (pat : List Char) : List Char → List Nat
  | [] => []
  | c :: rest =>
    (if pat.isPrefixOf (c :: rest) then [0] else []) ++ (occPos pat rest).map (· + 1)

/-- The header marker as a character list. -/
def markerL : List Char := marker.data

/-- A string that avoids the slash character entirely (the marker can
only start at a slash). -/
def slashFree (s : String) : Prop := ∀ c ∈ s.data, c ≠ '/'

instance (s : String) : Decidable (slashFree s) := by
  unfold slashFree
  infer_instance

/-- Modelled from the spec: a section as §4.1 words it — the header line
`// ===== File: {path} =====`, a blank line, then the raw content. -/
def specHeaderLine (p : String) : String := marker ++ p ++ " ====="

/-- Modelled from the spec: header line, newline, newline, content. -/
def specSection (f : FileRecord) : String :=
  specHeaderLine f.path ++ "\n" ++ "\n" ++ f.content

/-- Sample record A of the spec's worked example. -/
def recA : FileRecord := ⟨"a.txt", "a.txt", "hello"⟩

/-- Sample record B of the spec's worked example. -/
def recB : FileRecord := ⟨"b.txt", "b.txt", "world"⟩

/-- A record whose content itself contains the header marker. -/
def cexRec : FileRecord := ⟨"x", "p", "// ===== File: q ====="⟩


def markerTail : List Char := [' ', '=', '=', '=', '=', '=', ' ', 'F', 'i', 'l', 'e', ':', ' ']

lemma markerL_eq : markerL = '/' :: '/' :: markerTail := by decide

lemma isPrefixOf_self_append (l t : List Char) : l.isPrefixOf (l ++ t) = true :=
  List.isPrefixOf_iff_prefix.mpr (List.prefix_append l t)

lemma occPos_cons (pat : List Char) (c : Char) (rest : List Char) :
    occPos pat (c :: rest) =
      (if pat.isPrefixOf (c :: rest) then [0] else []) ++ (occPos pat rest).map (· + 1) := by
  simp [occPos]

lemma occPos_append_left_free (p : Char) (pt s t : List Char)
    (hs : ∀ c ∈ s, c ≠ p) :
    occPos (p :: pt) (s ++ t) = (occPos (p :: pt) t).map (· + s.length) := by
  induction s with
  | nil => simp
  | cons c s' ih =>
    have hc : (p == c) = false := beq_eq_false_iff_ne.mpr (Ne.symm (hs c (by simp)))
    have ih' := ih (fun d hd => hs d (List.mem_cons_of_mem _ hd))
    rw [List.cons_append, occPos_cons]
    rw [show (p :: pt).isPrefixOf (c :: (s' ++ t)) = false from by
      simp [List.isPrefixOf, hc]]
    rw [ih']
    simp only [Bool.false_eq_true, if_false, List.nil_append, List.map_map, List.length_cons]
    apply List.map_congr_left
    intro a _
    simp only [Function.comp_apply]
    omega

lemma occPos_marker_append_free (s t : List Char) (hs : ∀ c ∈ s, c ≠ '/') :
    occPos markerL (s ++ t) = (occPos markerL t).map (· + s.length) := by
  rw [markerL_eq]
  exact occPos_append_left_free '/' _ s t hs

lemma occPos_marker_self (z : List Char) :
    occPos markerL (markerL ++ z) = 0 :: (occPos markerL z).map (· + 15) := by
  rw [markerL_eq, List.cons_append, List.cons_append]
  have h1 : ('/' :: '/' :: markerTail).isPrefixOf ('/' :: '/' :: (markerTail ++ z)) = true := by
    rw [show '/' :: '/' :: (markerTail ++ z) = ('/' :: '/' :: markerTail) ++ z from by simp]
    exact isPrefixOf_self_append _ _
  have hch : (('/' : Char) == ' ') = false := by decide
  have h2 : ('/' :: '/' :: markerTail).isPrefixOf ('/' :: (markerTail ++ z)) = false := by
    simp [markerTail, List.isPrefixOf, hch]
  have htail : occPos ('/' :: '/' :: markerTail) (markerTail ++ z) =
      (occPos ('/' :: '/' :: markerTail) z).map (· + 13) := by
    have := occPos_append_left_free '/' ('/' :: markerTail) markerTail z (by decide)
    simpa [markerTail] using this
  rw [occPos_cons, occPos_cons, h1, h2, htail]
  simp only [if_true, Bool.false_eq_true, if_false, List.nil_append, List.map_map,
    List.singleton_append]
  have hcomp : ((fun x => x + 1) ∘ (fun x => x + 1) ∘ fun x => x + 13) = (fun x : Nat => x + 15) := by
    funext x
    show x + 13 + 1 + 1 = x + 15
    omega
  rw [hcomp]


def eqSuffixL : List Char := [' ', '=', '=', '=', '=', '=']

def eqNlL : List Char := [' ', '=', '=', '=', '=', '=', '\n', '\n']

lemma eqNlL_eq : eqNlL = eqSuffixL ++ ['\n', '\n'] := by decide

lemma eqNlL_free : ∀ c ∈ eqNlL, c ≠ '/' := by decide

lemma markerL_length : markerL.length = 15 := by decide

lemma header_data (p : String) : (header p).data = markerL ++ p.data ++ eqNlL := by
  have h8 : (" =====\n\n" : String).data = eqNlL := by decide
  simp [header, String.data_append, markerL, h8, eqNlL, List.append_assoc]

lemma sectionOf_data (f : FileRecord) :
    (sectionOf f).data = markerL ++ f.path.data ++ eqNlL ++ f.content.data := by
  simp [sectionOf, String.data_append, header_data, List.append_assoc]

lemma combine_cons₂ (r r' : FileRecord) (R : List FileRecord) :
    combine (r :: r' :: R) = sectionOf r ++ "\n\n" ++ combine (r' :: R) := rfl

lemma countOcc_eq_occPos_length (pat s : List Char) :
    countOcc pat s = (occPos pat s).length := by
  induction s with
  | nil => rfl
  | cons c rest ih =>
    by_cases h : pat.isPrefixOf (c :: rest) = true
    · simp [countOcc, occPos, h, ih]
      omega
    · simp [countOcc, occPos, h, ih]

lemma combine_occPos (R : List FileRecord)
    (hR : ∀ r ∈ R, slashFree r.path ∧ slashFree r.content) :
    List.Forall₂ (fun r p =>
        (markerL ++ r.path.data ++ eqSuffixL).isPrefixOf ((combine R).data.drop p) = true)
      R (occPos markerL (combine R).data) := by
  induction R with
  | nil =>
    have h0 : (combine []).data = [] := rfl
    rw [h0]
    exact List.Forall₂.nil
  | cons r R' ih =>
    have hp := (hR r (by simp)).1
    have hc := (hR r (by simp)).2
    have hR' : ∀ x ∈ R', slashFree x.path ∧ slashFree x.content :=
      fun x hx => hR x (by simp [hx])
    cases R' with
    | nil =>
      have hdata : (combine [r]).data =
          markerL ++ (r.path.data ++ (eqNlL ++ r.content.data)) := by
        have := sectionOf_data r
        simpa [List.append_assoc] using this
      rw [hdata, occPos_marker_self]
      have hfree : ∀ c ∈ r.path.data ++ (eqNlL ++ r.content.data), c ≠ '/' := by
        intro c hcm
        simp only [List.mem_append] at hcm
        rcases hcm with h | h | h
        · exact hp c h
        · exact eqNlL_free c h
        · exact hc c h
      have hz : occPos markerL (r.path.data ++ (eqNlL ++ r.content.data)) = [] := by
        have h := occPos_marker_append_free (r.path.data ++ (eqNlL ++ r.content.data)) [] hfree
        simpa using h
      rw [hz]
      refine List.Forall₂.cons ?_ List.Forall₂.nil
      rw [List.drop_zero]
      rw [show markerL ++ (r.path.data ++ (eqNlL ++ r.content.data)) =
          (markerL ++ r.path.data ++ eqSuffixL) ++ ('\n' :: '\n' :: r.content.data) from by
        simp [eqNlL_eq, List.append_assoc]]
      exact isPrefixOf_self_append _ _
    | cons r2 R'' =>
      have hnn : ("\n\n" : String).data = ['\n', '\n'] := by decide
      have hdata : (combine (r :: r2 :: R'')).data =
          markerL ++ ((r.path.data ++ (eqNlL ++ (r.content.data ++ ['\n', '\n']))) ++
            (combine (r2 :: R'')).data) := by
        rw [combine_cons₂]
        simp [String.data_append, sectionOf_data, hnn, List.append_assoc]
      have hzfree : ∀ c ∈ r.path.data ++ (eqNlL ++ (r.content.data ++ ['\n', '\n'])), c ≠ '/' := by
        intro c hcm
        simp only [List.mem_append, List.mem_cons, List.not_mem_nil] at hcm
        rcases hcm with h | h | h | h
        · exact hp c h
        · exact eqNlL_free c h
        · exact hc c h
        · rcases h with h | h
          · rw [h]; decide
          · rcases h with h | h
            · rw [h]; decide
            · cases h
      have hz : occPos markerL
          ((r.path.data ++ (eqNlL ++ (r.content.data ++ ['\n', '\n']))) ++
            (combine (r2 :: R'')).data) =
          (occPos markerL (combine (r2 :: R'')).data).map
            (· + (r.path.data ++ (eqNlL ++ (r.content.data ++ ['\n', '\n']))).length) :=
        occPos_marker_append_free _ _ hzfree
      rw [hdata, occPos_marker_self, hz, List.map_map]
      refine List.Forall₂.cons ?_ ?_
      · rw [List.drop_zero]
        rw [show markerL ++ ((r.path.data ++ (eqNlL ++ (r.content.data ++ ['\n', '\n']))) ++
              (combine (r2 :: R'')).data) =
            (markerL ++ r.path.data ++ eqSuffixL) ++
              ('\n' :: '\n' :: (r.content.data ++ ('\n' :: '\n' :: (combine (r2 :: R'')).data)))
            from by simp [eqNlL_eq, List.append_assoc]]
        exact isPrefixOf_self_append _ _
      · rw [List.forall₂_map_right_iff]
        refine List.Forall₂.imp ?_ (ih hR')
        intro a b hab
        have hdrop : (markerL ++ ((r.path.data ++ (eqNlL ++ (r.content.data ++ ['\n', '\n']))) ++
              (combine (r2 :: R'')).data)).drop
              (b + (r.path.data ++ (eqNlL ++ (r.content.data ++ ['\n', '\n']))).length + 15) =
            (combine (r2 :: R'')).data.drop b := by
          rw [show markerL ++ ((r.path.data ++ (eqNlL ++ (r.content.data ++ ['\n', '\n']))) ++
                (combine (r2 :: R'')).data) =
              (markerL ++ (r.path.data ++ (eqNlL ++ (r.content.data ++ ['\n', '\n'])))) ++
                (combine (r2 :: R'')).data from by simp [List.append_assoc]]
          rw [show b + (r.path.data ++ (eqNlL ++ (r.content.data ++ ['\n', '\n']))).length + 15 =
              (markerL ++ (r.path.data ++ (eqNlL ++ (r.content.data ++ ['\n', '\n'])))).length + b
              from by simp only [List.length_append, markerL_length]; omega]
          exact List.drop_append b
        show (markerL ++ a.path.data ++ eqSuffixL).isPrefixOf
            ((markerL ++ ((r.path.data ++ (eqNlL ++ (r.content.data ++ ['\n', '\n']))) ++
              (combine (r2 :: R'')).data)).drop
              (b + (r.path.data ++ (eqNlL ++ (r.content.data ++ ['\n', '\n']))).length + 15)) = true
        rw [hdrop]
        exact hab


lemma sectionOf_eq_specSection (f : FileRecord) : sectionOf f = specSection f := by
  have hsplit : (" =====\n\n" : String) = " =====" ++ "\n" ++ "\n" := by decide
  simp [sectionOf, specSection, header, specHeaderLine, hsplit, String.append_assoc]

/-- Claim C1: for every ordered sequence of selected records, `combine`
produces one section per record in input order — the header line
`// ===== File: {path} =====`, a blank line, then the record's raw
content — and joins sections with exactly two newline characters; on the
spec's two-record example it yields exactly the expected string. -/
theorem C1_combine_format :
    (∀ files : List FileRecord,
      combine files = joinSep ("\n" ++ "\n") (files.map specSection)) ∧
    combine [recA, recB] =
      "// ===== File: a.txt =====\n\nhello\n\n// ===== File: b.txt =====\n\nworld" := by
  constructor
  · intro files
    have hsep : ("\n" ++ "\n" : String) = "\n\n" := by decide
    rw [hsep]
    unfold combine
    congr 1
    exact List.map_congr_left (fun f _ => sectionOf_eq_specSection f)
  · decide

/-- Claim C4: combining an empty selection yields the empty string, and
the click handler cannot fail on an empty selection. -/
theorem C4_empty_selection :
    combine [] = "" ∧ ∀ fileData : List FileRecord, combineSel fileData [] = "" :=
  ⟨rfl, fun _ => rfl⟩

/-- Claim C5: `escapeHtml` maps each of the five special characters to
its entity in one left-to-right pass (the pass distributes over
concatenation), leaves every other character unchanged, reproduces the
spec's example, and the combined output itself is raw: a combined
section is the unescaped header plus the unescaped content. -/
theorem C5_escape_rule :
    escapeHtml ("<b>&" ++ String.singleton aposC ++ String.singleton quotC) =
      "&lt;b&gt;&amp;&#39;&quot;" ∧
    (∀ s t : String, escapeHtml (s ++ t) = escapeHtml s ++ escapeHtml t) ∧
    (∀ c : Char, c ≠ '&' → c ≠ '<' → c ≠ '>' → c ≠ quotC → c ≠ aposC →
      escapeChar c = String.singleton c) ∧
    (∀ f : FileRecord, combine [f] = marker ++ f.path ++ " =====\n\n" ++ f.content) := by
  refine ⟨by decide, ?_, ?_, ?_⟩
  · intro s t
    unfold escapeHtml
    rw [String.data_append]
    induction s.data with
    | nil => simp [escapeRun, String.empty_append]
    | cons c rest ih => simp [escapeRun, ih, String.append_assoc]
  · intro c h1 h2 h3 h4 h5
    simp [escapeChar, h1, h2, h3, h4, h5]
  · intro f
    show joinSep "\n\n" [sectionOf f] = _
    simp [joinSep, sectionOf, header, String.append_assoc]

/-- Witness for C5 at a concrete ordinary character. -/
theorem C5_escape_rule_witness : escapeChar 'x' = String.singleton 'x' :=
  C5_escape_rule.2.2.1 'x' (by decide) (by decide) (by decide) (by decide) (by decide)

/-- Claim C3 (amended): when no selected record's path or content
contains a slash, `combine` emits exactly one marker occurrence per
record, and the k-th occurrence is immediately followed by the k-th
record's path and `' ====='`. -/
theorem C3_marker_occurrences (R : List FileRecord)
    (hR : ∀ r ∈ R, slashFree r.path ∧ slashFree r.content) :
    countOcc markerL (combine R).data = R.length ∧
    List.Forall₂ (fun r p =>
        (markerL ++ r.path.data ++ eqSuffixL).isPrefixOf ((combine R).data.drop p) = true)
      R (occPos markerL (combine R).data) := by
  have h := combine_occPos R hR
  refine ⟨?_, h⟩
  rw [countOcc_eq_occPos_length]
  exact h.length_eq.symm

/-- Witness for C3 on the spec's record A. -/
theorem C3_marker_occurrences_witness :
    countOcc markerL (combine [recA]).data = [recA].length ∧
    List.Forall₂ (fun r p =>
        (markerL ++ r.path.data ++ eqSuffixL).isPrefixOf ((combine [recA]).data.drop p) = true)
      [recA] (occPos markerL (combine [recA]).data) :=
  C3_marker_occurrences [recA] (by decide)

/-- Counterexample to C3 as stated: a record whose content contains the
marker substring makes the occurrence count exceed the record count. -/
theorem C3_count_counterexample :
    ¬ (countOcc markerL (combine [cexRec]).data = ([cexRec] : List FileRecord).length) := by
  decide


lemma selectedIndicesFrom_replicate (k n : Nat) :
    selectedIndicesFrom k (List.replicate n true) = List.range' k n := by
  induction n generalizing k with
  | zero => rfl
  | succ m ih => simp [List.replicate, selectedIndicesFrom, ih, List.range'_succ]

lemma selectedIndicesFrom_setAll_false (k : Nat) (s : List Bool) :
    selectedIndicesFrom k (setAll false s) = [] := by
  induction s generalizing k with
  | nil => rfl
  | cons b bs ih => simpa [setAll, selectedIndicesFrom] using ih (k + 1)

lemma toggle_getElem? (s : List Bool) (i j : Nat) :
    (toggle i s)[j]? = if j = i then (s[j]?).map not else s[j]? := by
  induction s generalizing i j with
  | nil => cases i <;> simp [toggle]
  | cons b bs ih =>
    cases i with
    | zero =>
      cases j with
      | zero => simp [toggle]
      | succ j' => simp [toggle]
    | succ i' =>
      cases j with
      | zero => simp [toggle]
      | succ j' => simpa [toggle] using ih i' j'

/-- Claim C6: right after rendering, every index is checked and the
selected indices are `[0, ..., n-1]` ascending; after unselect-all the
selection is empty; clicking checkbox `i` flips exactly index `i`. -/
theorem C6_selection_model :
    (∀ n : Nat, selectedIndices (initFlags n) = List.range n) ∧
    (∀ s : List Bool, selectedIndices (setAll false s) = []) ∧
    (∀ (s : List Bool) (i j : Nat),
      (toggle i s)[j]? = if j = i then (s[j]?).map not else s[j]?) := by
  refine ⟨?_, ?_, ?_⟩
  · intro n
    rw [List.range_eq_range']
    exact selectedIndicesFrom_replicate 0 n
  · intro s
    exact selectedIndicesFrom_setAll_false 0 s
  · intro s i j
    exact toggle_getElem? s i j

lemma toggle_toggle (i : Nat) (s : List Bool) : toggle i (toggle i s) = s := by
  induction s generalizing i with
  | nil => cases i <;> rfl
  | cons b bs ih =>
    cases i with
    | zero => simp [toggle]
    | succ i' => simp [toggle, ih]

lemma toggle_length (i : Nat) (s : List Bool) : (toggle i s).length = s.length := by
  induction s generalizing i with
  | nil => cases i <;> rfl
  | cons b bs ih =>
    cases i with
    | zero => simp [toggle]
    | succ i' => simp [toggle, ih]

lemma toggle_oob (i : Nat) (s : List Bool) (h : s.length ≤ i) : toggle i s = s := by
  induction s generalizing i with
  | nil => cases i <;> rfl
  | cons b bs ih =>
    cases i with
    | zero => simp at h
    | succ i' =>
      simp only [List.length_cons] at h
      simp [toggle, ih i' (by omega)]

/-- Claim C7 (amended): `setAll` is idempotent; `toggle` is an
involution — repeating it restores the state before, so it is not
idempotent; both preserve the number of flags, and `toggle` on an index
outside `[0, n)` changes nothing. -/
theorem C7_bulk_ops :
    (∀ (b : Bool) (s : List Bool), setAll b (setAll b s) = setAll b s) ∧
    (∀ (i : Nat) (s : List Bool), toggle i (toggle i s) = s) ∧
    (∀ (b : Bool) (s : List Bool), (setAll b s).length = s.length) ∧
    (∀ (i : Nat) (s : List Bool), (toggle i s).length = s.length) ∧
    (∀ (i : Nat) (s : List Bool), s.length ≤ i → toggle i s = s) :=
  ⟨fun b s => by simp [setAll], toggle_toggle, fun b s => by simp [setAll],
    toggle_length, toggle_oob⟩

/-- Witness for C7 at a concrete out-of-range index. -/
theorem C7_bulk_ops_witness : toggle 2 [true, false] = [true, false] :=
  C7_bulk_ops.2.2.2.2 2 [true, false] (by decide)

/-- Counterexample to C7 as stated: `toggle` is not idempotent — two
identical clicks do not leave the state as after one. -/
theorem C7_toggle_not_idempotent :
    ¬ (toggle 0 (toggle 0 [true]) = toggle 0 [true]) := by
  decide

/-- Claim C10: a checked index with no record in `fileData` (stale or
out of range) is skipped silently: it contributes no section and the
combine operation still succeeds. -/
theorem C10_stale_index (fileData : List FileRecord) (pre post : List Nat) (i : Nat)
    (h : fileData.length ≤ i) :
    combineSel fileData (pre ++ i :: post) = combineSel fileData (pre ++ post) := by
  have hnone : fileData[i]? = none := List.getElem?_eq_none h
  simp [combineSel, selectedFiles, List.filterMap_append, List.filterMap_cons, hnone]

/-- Witness for C10 with a one-record list and the stale index 5. -/
theorem C10_stale_index_witness :
    combineSel [recA] ([0] ++ 5 :: []) = combineSel [recA] ([0] ++ []) :=
  C10_stale_index [recA] [0] [] 5 (by decide)


/-- Reference recursion for the records a flag vector selects: walk the
records and flags together, keeping the flagged records. -/
def zipSel : List FileRecord → List Bool → List FileRecord
  | _, [] => []
  | [], _ => []
  | r :: R, b :: bs => if b then r :: zipSel R bs else zipSel R bs

lemma selectedIndicesFrom_succ (k : Nat) (s : List Bool) :
    selectedIndicesFrom (k + 1) s = (selectedIndicesFrom k s).map (· + 1) := by
  induction s generalizing k with
  | nil => rfl
  | cons b bs ih => cases b <;> simp [selectedIndicesFrom, ih]

lemma selectedFiles_nil_left (is : List Nat) : selectedFiles [] is = [] := by
  simp [selectedFiles, List.filterMap_eq_nil_iff]

lemma selectedFiles_cons_shift (r : FileRecord) (R : List FileRecord) (is : List Nat) :
    selectedFiles (r :: R) (is.map (· + 1)) = selectedFiles R is := by
  unfold selectedFiles
  rw [List.filterMap_map]
  apply List.filterMap_congr
  intro i _
  simp [Function.comp]

lemma selectedFiles_selectedIndices (R : List FileRecord) (flags : List Bool) :
    selectedFiles R (selectedIndices flags) = zipSel R flags := by
  induction flags generalizing R with
  | nil => cases R <;> rfl
  | cons b bs ih =>
    cases R with
    | nil => rw [selectedFiles_nil_left]; cases b <;> rfl
    | cons r R' =>
      unfold selectedIndices at ih ⊢
      cases b with
      | false =>
        show selectedFiles (r :: R') (selectedIndicesFrom (0 + 1) bs) =
          zipSel (r :: R') (false :: bs)
        rw [selectedIndicesFrom_succ, selectedFiles_cons_shift, ih]
        rfl
      | true =>
        show selectedFiles (r :: R') (0 :: selectedIndicesFrom (0 + 1) bs) =
          zipSel (r :: R') (true :: bs)
        rw [show selectedFiles (r :: R') (0 :: selectedIndicesFrom (0 + 1) bs) =
            r :: selectedFiles (r :: R') (selectedIndicesFrom (0 + 1) bs) from by
          simp [selectedFiles, List.filterMap_cons]]
        rw [selectedIndicesFrom_succ, selectedFiles_cons_shift, ih]
        rfl

lemma zipSel_sublist (R : List FileRecord) (flags : List Bool) :
    List.Sublist (zipSel R flags) R := by
  induction R generalizing flags with
  | nil => cases flags <;> simp [zipSel]
  | cons r R' ih =>
    cases flags with
    | nil => simp [zipSel]
    | cons b bs =>
      cases b with
      | false => exact List.Sublist.cons r (ih bs)
      | true => exact List.Sublist.cons₂ r (ih bs)

lemma zipSel_length (R : List FileRecord) (flags : List Bool)
    (h : flags.length = R.length) :
    (zipSel R flags).length = flags.count true := by
  induction R generalizing flags with
  | nil =>
    cases flags with
    | nil => rfl
    | cons b bs => simp at h
  | cons r R' ih =>
    cases flags with
    | nil => simp at h
    | cons b bs =>
      simp only [List.length_cons] at h
      cases b <;> simp [zipSel, List.count_cons, ih bs (by omega)]

/-- Claim C2: the records the click handler combines are a sublist of
the snapshot — same relative order, nothing duplicated, nothing dropped
beyond de-selection — so the sections appear in snapshot order, and each
included flag contributes exactly one record. -/
theorem C2_order_preservation (R : List FileRecord) (flags : List Bool)
    (h : flags.length = R.length) :
    List.Sublist (selectedFiles R (selectedIndices flags)) R ∧
    List.Sublist ((selectedFiles R (selectedIndices flags)).map sectionOf)
      (R.map sectionOf) ∧
    (selectedFiles R (selectedIndices flags)).length = flags.count true := by
  rw [selectedFiles_selectedIndices]
  exact ⟨zipSel_sublist R flags, List.Sublist.map sectionOf (zipSel_sublist R flags),
    zipSel_length R flags h⟩

/-- Witness for C2 on a two-record snapshot with the second record
de-selected. -/
theorem C2_order_preservation_witness :
    List.Sublist (selectedFiles [recA, recB] (selectedIndices [true, false])) [recA, recB] ∧
    List.Sublist ((selectedFiles [recA, recB] (selectedIndices [true, false])).map sectionOf)
      ([recA, recB].map sectionOf) ∧
    (selectedFiles [recA, recB] (selectedIndices [true, false])).length =
      ([true, false] : List Bool).count true :=
  C2_order_preservation [recA, recB] [true, false] (by decide)


/-- Claim C8: a text tab whose read fails is silently dropped: the
enumeration still succeeds and returns exactly the records of the other
tabs, in order, with no error and no placeholder. -/
theorem C8_failed_read_dropped (rd : String → Option FileRecord)
    (A B : List TabInput) (u : String) (hfail : rd u = none) :
    filesOfTabs rd (A ++ TabInput.text u :: B) = filesOfTabs rd A ++ filesOfTabs rd B ∧
    getOpenFiles rd [A ++ TabInput.text u :: B] = filesOfTabs rd A ++ filesOfTabs rd B := by
  have h : filesOfTabs rd (A ++ TabInput.text u :: B) =
      filesOfTabs rd A ++ filesOfTabs rd B := by
    simp [filesOfTabs, readTab, hfail, List.filterMap_append, List.filterMap_cons]
  exact ⟨h, by simpa [getOpenFiles] using h⟩

/-- Witness for C8: a single unreadable tab enumerates to the empty
list. -/
theorem C8_failed_read_dropped_witness :
    filesOfTabs (fun _ => none) ([] ++ TabInput.text "u" :: []) =
      filesOfTabs (fun _ => none) [] ++ filesOfTabs (fun _ => none) [] ∧
    getOpenFiles (fun _ => none) [[] ++ TabInput.text "u" :: []] =
      filesOfTabs (fun _ => none) [] ++ filesOfTabs (fun _ => none) [] :=
  C8_failed_read_dropped (fun _ => none) [] [] "u" rfl

lemma lookup_map_key {β : Type} (g : Nat → β) (order : List Nat) (i : Nat)
    (h : i ∈ order) : (order.map (fun j => (j, g j))).lookup i = some (g i) := by
  induction order with
  | nil => cases h
  | cons j rest ih =>
    simp only [List.map_cons, List.lookup_cons]
    by_cases hij : i = j
    · subst hij
      simp
    · have hbe : (i == j) = false := beq_eq_false_iff_ne.mpr hij
      rw [hbe]
      have h' : i ∈ rest := by
        rcases List.mem_cons.mp h with h1 | h1
        exacts [absurd h1 hij, h1]
      exact ih h'

/-- Claim C9: whatever order the per-tab reads complete in, the
aggregated result lists the readable records in tab order. -/
theorem C9_tab_order (rd : String → Option FileRecord) (tabs : List TabInput)
    (order : List Nat) (hperm : order.Perm (List.range tabs.length)) :
    gather rd tabs order = filesOfTabs rd tabs := by
  unfold gather filesOfTabs
  congr 1
  have hmem : ∀ i ∈ List.range tabs.length, i ∈ order := fun i hi => hperm.mem_iff.mpr hi
  rw [List.map_congr_left (fun i hi => by
    rw [lookup_map_key (fun j => (tabs[j]?).bind (readTab rd)) order i (hmem i hi)])]
  apply List.ext_getElem
  · simp
  · intro n h1 h2
    simp only [List.getElem_map, List.getElem_range]
    rw [List.getElem?_eq_getElem (by simpa using h1)]
    rfl

/-- Witness for C9: two tabs whose reads complete in reverse order. -/
theorem C9_tab_order_witness :
    gather (fun _ => some recA) [TabInput.other, TabInput.text "a"] [1, 0] =
      filesOfTabs (fun _ => some recA) [TabInput.other, TabInput.text "a"] :=
  C9_tab_order (fun _ => some recA) [TabInput.other, TabInput.text "a"] [1, 0] (by decide)

end CombineFiles
